import Mathlib

/-!
Shallow embedding of `src/text_revert.py`, a regex-based text versioning
system.  Text buffers are modelled as `List Char` (Python strings are
sequences of code points; `text[:i]` is `List.take i`, `text[i:]` is
`List.drop i`).  Python's `re.finditer` is modelled for the fragment the
program's semantics depend on: literal patterns, matched left to right,
non-overlapping, with the empty pattern matching at every position
(Python 3.7+ behaviour); an invalid pattern makes `re.finditer` raise
`re.error`, modelled as `Except.error`.
-/

deriving instance DecidableEq for Except

/-- Character-list equality test for a candidate match: `litMatch p t` is
`true` iff `p` occurs at the very start of `t` (Python: the literal pattern
matches at the current scan position). -/
def litMatch : List Char → List Char → Bool
  | [], _ => true
  | _ :: _, [] => false
  | a :: as, b :: bs => a = b && litMatch as bs

/-- Fuel-indexed scan of Python's `re.finditer` for a literal pattern `p`
over `text`, starting at position `i`: leftmost, non-overlapping matches,
each reported as a half-open span `(start, stop)`.  After a non-empty match
the scan resumes at the match end; after an empty match it advances one
position (Python's `finditer` behaviour).  Fuel `text.length + 1` from
position `0` is enough to visit every scan position. -/
def findFromFuel (p text : List Char) : Nat → Nat → List (Nat × Nat)
  | 0, _ => []
  | fuel + 1, i =>
    if i ≤ text.length then
      if litMatch p (text.drop i) then
        if p.length = 0 then
          (i, i) :: findFromFuel p text fuel (i + 1)
        else
          (i, i + p.length) :: findFromFuel p text fuel (i + p.length)
      else
        findFromFuel p text fuel (i + 1)
    else []

/-- A regex pattern as stored in a command: either a literal pattern the
engine compiles successfully, or a pattern whose compilation fails
(e.g. `"("`), on which `re.finditer` raises `re.error`. -/
inductive RePattern where
  | lit : List Char → RePattern
  | invalid : RePattern
deriving DecidableEq, Repr

/-- Model of Python's `re.finditer(pattern, text)`: the ordered list of
non-overlapping match spans for a valid pattern, or a raised `re.error`
(`Except.error`) for an invalid one. -/
def finditer : RePattern → List Char → Except Unit (List (Nat × Nat))
  | .lit p, text => .ok (findFromFuel p text (text.length + 1) 0)
  | .invalid, _ => .error ()

/-- Whether a pattern compiles (does not raise `re.error`). -/
def RePattern.isValid : RePattern → Bool
  | .lit _ => true
  | .invalid => false

/-- One edit command, as built in `main` of `src/text_revert.py`:
`pattern`, 1-based `occurrence` (a Python `int`, so an `Int`), `operation`
string, `replacement` text and integer `timestamp`. -/
structure Command where
  pattern : RePattern
  occurrence : Int
  operation : String
  replacement : List Char
  timestamp : Int
deriving DecidableEq, Repr

/-- `apply_command(text, command)` from `src/text_revert.py` lines 62-97:
recompute the match list, silently no-op when `occurrence <= 0 or
occurrence > len(matches)`, otherwise select `matches[occurrence - 1]`,
compute `new_text` by operation (unknown operations return `text`
unchanged) and splice `text[:start] + new_text + text[end:]`.  A raised
`re.error` from `re.finditer` propagates as `Except.error`. -/
def apply_command (text : List Char) (command : Command) : Except Unit (List Char) :=
  match finditer command.pattern text with
  | .error e => .error e
  | .ok ms =>
    if command.occurrence ≤ 0 ∨ (ms.length : Int) < command.occurrence then
      .ok text
    else
      let m := ms.getD (command.occurrence - 1).toNat (0, 0)
      let matched_text := (text.drop m.1).take (m.2 - m.1)
      -- Each branch returns `text[:start] + new_text + text[end:]` with the
      -- branch's `new_text`; the final `else` is Python's early `return text`.
      if command.operation = "replace" then
        .ok (text.take m.1 ++ command.replacement ++ text.drop m.2)
      else if command.operation = "insert_after" then
        .ok (text.take m.1 ++ (matched_text ++ command.replacement) ++ text.drop m.2)
      else if command.operation = "insert_before" then
        .ok (text.take m.1 ++ (command.replacement ++ matched_text) ++ text.drop m.2)
      else if command.operation = "delete" then
        .ok (text.take m.1 ++ [] ++ text.drop m.2)
      else
        .ok text

/-- `reconstruct_document_at_time(original_text, command_stack, target_time)`
from `src/text_revert.py` lines 101-114: forward scan over the command
stack, breaking at the first command with `timestamp > target_time`,
applying each earlier command to the running text.  An exception raised by
`apply_command` propagates. -/
def reconstruct_document_at_time (original_text : List Char)
    (command_stack : List Command) (target_time : Int) : Except Unit (List Char) :=
  match command_stack with
  | [] => .ok original_text
  | command :: rest =>
    if command.timestamp > target_time then .ok original_text
    else
      match apply_command original_text command with
      | .error e => .error e
      | .ok t => reconstruct_document_at_time t rest target_time

/-- Folding `apply_command` left to right over a whole command list
(exceptions propagate).  Used to state the claims that describe replay as
"applying the commands in order". -/
def applyAll : List Char → List Command → Except Unit (List Char)
  | text, [] => .ok text
  | text, command :: rest =>
    match apply_command text command with
    | .error e => .error e
    | .ok t => applyAll t rest

/-- Spec-side replay, following the spec's words: apply exactly "the prefix
of commands whose timestamp does not exceed `target_time`", i.e. fold
`apply_command` over the commands filtered by `timestamp ≤ target_time`
(for a time-sorted log this filtered set is that prefix). -/
def reconstructSpec (original_text : List Char)
    (command_stack : List Command) (target_time : Int) : Except Unit (List Char) :=
  applyAll original_text (command_stack.filter (fun c => c.timestamp ≤ target_time))

/-- The command log is sorted: timestamps strictly increase with append
order. -/
def TimeSorted (command_stack : List Command) : Prop :=
  command_stack.Pairwise (fun a b => a.timestamp < b.timestamp)

instance : DecidablePred TimeSorted := fun l =>
  inferInstanceAs (Decidable (l.Pairwise _))

/-!
Editor session model, from `main` of `src/text_revert.py`: mutable state is
the original document, the current document, the command stack and the
running timestamp counter (initialised to `0`).  An edit appends a command
stamped `timestamp + 1`; a revert-and-continue (choice 2 answered `y`) sets
the current document to the reconstruction, resets the counter to the
entered `target_time` and truncates the stack to `timestamp <= target_time`.
-/

/-- The timestamp-free part of a command, as collected from user input in
`main` before `timestamp += 1` stamps it. -/
structure Draft where
  pattern : RePattern
  operation : String
  occurrence : Int
  replacement : List Char
deriving DecidableEq, Repr

/-- Stamping a draft with a timestamp (the dict literal built in `main`
lines 178-184). -/
def mkCommand (d : Draft) (ts : Int) : Command :=
  { pattern := d.pattern, occurrence := d.occurrence, operation := d.operation,
    replacement := d.replacement, timestamp := ts }

/-- The editor session state of `main`: `original_document`,
`current_document`, `command_stack`, `timestamp`. -/
structure Session where
  original : List Char
  current : List Char
  stack : List Command
  timestamp : Int
deriving DecidableEq, Repr

/-- Session state right after loading the document (`main` lines 131-135):
current = original, empty stack, timestamp counter `0`. -/
def initSession (orig : List Char) : Session :=
  { original := orig, current := orig, stack := [], timestamp := 0 }

/-- The edit branch of `main` (lines 176-187): increment the timestamp
counter, stamp the draft, append it to the stack, and replace the current
document by the new text produced by `apply_command`. -/
def editStep (s : Session) (d : Draft) (newCur : List Char) : Session :=
  { s with timestamp := s.timestamp + 1,
           stack := s.stack ++ [mkCommand d (s.timestamp + 1)],
           current := newCur }

/-- The revert branch of `main` with the continue answer `y` (lines
210-216): the current document becomes the reconstruction, the timestamp
counter becomes `target_time`, and the stack is truncated to the commands
with `timestamp <= target_time`. -/
def revertStep (s : Session) (target : Int) (reverted : List Char) : Session :=
  { s with current := reverted, timestamp := target,
           stack := s.stack.filter (fun c => c.timestamp ≤ target) }

/-- One iteration of the `main` loop that mutates the session: either an
accepted edit (whose `apply_command` result is the new current document) or
a revert-and-continue (possible only when the stack is nonempty, with the
reconstruction as the reverted text). -/
inductive EditorStep : Session → Session → Prop
  | edit (s : Session) (d : Draft) (t : List Char)
      (h : apply_command s.current (mkCommand d (s.timestamp + 1)) = .ok t) :
      EditorStep s (editStep s d t)
  | revert (s : Session) (target : Int) (t : List Char)
      (hne : s.stack ≠ [])
      (h : reconstruct_document_at_time s.original s.stack target = .ok t) :
      EditorStep s (revertStep s target t)

/-- Session states reachable by the `main` loop from a freshly loaded
document. -/
inductive EditorReachable : Session → Prop
  | init (orig : List Char) : EditorReachable (initSession orig)
  | step {s s' : Session} : EditorReachable s → EditorStep s s' → EditorReachable s'

/-- Running a sequence of edit steps (each paired with the new current text
it produces), starting from a session: repeated trips through the edit
branch of `main`. -/
def editRun : Session → List (Draft × List Char) → Session
  | s, [] => s
  | s, (d, t) :: rest => editRun (editStep s d t) rest

/-!  Concrete commands of the spec's test scenarios A-D. -/

/-- Scenario A command: replace occurrence 1 of `"at"` by `"og"`,
timestamp 1. -/
def cmd1 : Command :=
  { pattern := .lit "at".data, occurrence := 1, operation := "replace",
    replacement := "og".data, timestamp := 1 }

/-- Scenario B command: delete occurrence 1 of `"at"`, timestamp 2. -/
def cmd2 : Command :=
  { pattern := .lit "at".data, occurrence := 1, operation := "delete",
    replacement := [], timestamp := 2 }

/-- The draft of `cmd1`: the user input that `main` stamps with the next
timestamp. -/
def draft1 : Draft :=
  { pattern := .lit "at".data, operation := "replace", occurrence := 1,
    replacement := "og".data }

/-- A command whose pattern does not compile, as could appear in a command
list supplied to replay: `re.finditer` raises `re.error` on it. -/
def badCmd : Command :=
  { pattern := .invalid, occurrence := 1, operation := "replace",
    replacement := [], timestamp := 1 }


/-! ## Helper lemmas -/

/-- A successful literal match needs at least the pattern's length of text. -/
theorem litMatch_length {p t : List Char} (h : litMatch p t = true) :
    p.length ≤ t.length := by
  induction p generalizing t with
  | nil => simp
  | cons a as ih =>
    cases t with
    | nil => simp [litMatch] at h
    | cons b bs =>
      simp only [litMatch, Bool.and_eq_true] at h
      have := ih h.2
      simp only [List.length_cons]
      omega

/-- Every span the scan reports is well formed: `start ≤ stop` and
`stop ≤ text.length`, whatever the fuel. -/
theorem findFromFuel_mem_bounds (p text : List Char) :
    ∀ (fuel i s e : Nat), (s, e) ∈ findFromFuel p text fuel i →
      s ≤ e ∧ e ≤ text.length := by
  intro fuel
  induction fuel with
  | zero => intro i s e h; simp [findFromFuel] at h
  | succ n ih =>
    intro i s e h
    rw [findFromFuel] at h
    by_cases hi : i ≤ text.length
    · rw [if_pos hi] at h
      by_cases hm : litMatch p (text.drop i) = true
      · rw [if_pos hm] at h
        have hplen : i + p.length ≤ text.length := by
          have := litMatch_length hm
          rw [List.length_drop] at this
          omega
        by_cases hp : p.length = 0
        · rw [if_pos hp] at h
          rcases List.mem_cons.mp h with h1 | h2
          · simp only [Prod.mk.injEq] at h1
            omega
          · exact ih (i + 1) s e h2
        · rw [if_neg hp] at h
          rcases List.mem_cons.mp h with h1 | h2
          · simp only [Prod.mk.injEq] at h1
            omega
          · exact ih (i + p.length) s e h2
      · rw [if_neg hm] at h
        exact ih (i + 1) s e h
    · rw [if_neg hi] at h
      simp at h

/-- Every span returned by a successful `finditer` is well formed. -/
theorem finditer_mem_bounds {pat : RePattern} {text : List Char}
    {ms : List (Nat × Nat)} (hok : finditer pat text = .ok ms)
    {s e : Nat} (hmem : (s, e) ∈ ms) : s ≤ e ∧ e ≤ text.length := by
  cases pat with
  | lit p =>
    simp only [finditer, Except.ok.injEq] at hok
    subst hok
    exact findFromFuel_mem_bounds p text _ 0 s e hmem
  | invalid => simp [finditer] at hok

/-- The early-exit forward scan applies exactly the `takeWhile` prefix of
commands with `timestamp ≤ target_time` (no sortedness needed: the scan
stops at the first failing command, which is precisely what `takeWhile`
keeps). -/
theorem reconstruct_eq_takeWhile (command_stack : List Command)
    (orig : List Char) (target : Int) :
    reconstruct_document_at_time orig command_stack target
      = applyAll orig (command_stack.takeWhile (fun c => c.timestamp ≤ target)) := by
  induction command_stack generalizing orig with
  | nil => rfl
  | cons c rest ih =>
    by_cases h : c.timestamp > target
    · have hp : (decide (c.timestamp ≤ target)) = false := by
        simp only [decide_eq_false_iff_not]; omega
      simp only [reconstruct_document_at_time, if_pos h, List.takeWhile_cons, hp,
        Bool.false_eq_true, if_neg, applyAll]
    · have hp : (decide (c.timestamp ≤ target)) = true := by
        simp only [decide_eq_true_eq]; omega
      rw [reconstruct_document_at_time, if_neg h, List.takeWhile_cons]
      rw [hp]
      simp only [applyAll]
      cases happ : apply_command orig c with
      | error e => rfl
      | ok t => exact ih t

/-- For a time-sorted stack, the `takeWhile` prefix below a cut equals the
filter below that cut. -/
theorem takeWhile_eq_filter_of_sorted {command_stack : List Command}
    (hs : TimeSorted command_stack) (target : Int) :
    command_stack.takeWhile (fun c => c.timestamp ≤ target)
      = command_stack.filter (fun c => c.timestamp ≤ target) := by
  induction command_stack with
  | nil => rfl
  | cons c rest ih =>
    rcases List.pairwise_cons.mp hs with ⟨hhd, hrest⟩
    by_cases h : c.timestamp ≤ target
    · have hp : (decide (c.timestamp ≤ target)) = true := by
        simp only [decide_eq_true_eq]; omega
      rw [List.takeWhile_cons, List.filter_cons, hp]
      simp only [if_pos rfl]
      rw [ih hrest]
      simp
    · have hp : (decide (c.timestamp ≤ target)) = false := by
        simp only [decide_eq_false_iff_not]; omega
      have hnil : rest.filter (fun c => decide (c.timestamp ≤ target)) = [] := by
        apply List.filter_eq_nil_iff.mpr
        intro d hd
        have := hhd d hd
        simp only [decide_eq_true_eq]
        omega
      rw [List.takeWhile_cons, List.filter_cons, hp, hnil]
      simp

/-- Folding `apply_command` over a concatenation is the fold over the first
part, then (on success) over the second. -/
theorem applyAll_append (l1 l2 : List Command) (orig : List Char) :
    applyAll orig (l1 ++ l2)
      = match applyAll orig l1 with
        | .error e => .error e
        | .ok t => applyAll t l2 := by
  induction l1 generalizing orig with
  | nil => simp [applyAll]
  | cons c rest ih =>
    simp only [List.cons_append, applyAll]
    cases happ : apply_command orig c with
    | error e => rfl
    | ok t => exact ih t

/-- Below a cut `T`, a list whose members all have timestamps above `T`
filters to nothing. -/
theorem filter_le_nil_of_all_gt {rest : List Command} {T : Int}
    (h : ∀ d ∈ rest, T < d.timestamp) :
    rest.filter (fun c => c.timestamp ≤ T) = [] := by
  apply List.filter_eq_nil_iff.mpr
  intro d hd
  simp only [decide_eq_true_eq]
  have := h d hd
  omega

/-- Inside a window `(T1, T2]`, a list whose members all have timestamps
above `T2` filters to nothing. -/
theorem filter_window_nil_of_all_gt {rest : List Command} {T1 T2 : Int}
    (h : ∀ d ∈ rest, T2 < d.timestamp) :
    rest.filter (fun c => T1 < c.timestamp ∧ c.timestamp ≤ T2) = [] := by
  apply List.filter_eq_nil_iff.mpr
  intro d hd
  simp only [decide_eq_true_eq, not_and]
  have := h d hd
  omega

/-- For a time-sorted stack and cuts `T1 < T2`, the commands at or below
`T2` are those at or below `T1` followed by those strictly inside
`(T1, T2]`. -/
theorem filter_le_split {command_stack : List Command} (hs : TimeSorted command_stack)
    {T1 T2 : Int} (h12 : T1 < T2) :
    command_stack.filter (fun c => c.timestamp ≤ T2)
      = command_stack.filter (fun c => c.timestamp ≤ T1)
        ++ command_stack.filter (fun c => T1 < c.timestamp ∧ c.timestamp ≤ T2) := by
  induction command_stack with
  | nil => rfl
  | cons c rest ih =>
    rcases List.pairwise_cons.mp hs with ⟨hhd, hrest⟩
    by_cases hc1 : c.timestamp ≤ T1
    · have h2 : c.timestamp ≤ T2 := by omega
      have h3 : ¬(T1 < c.timestamp ∧ c.timestamp ≤ T2) := by omega
      simp [List.filter_cons, hc1, h2, h3, ih hrest]
    · have hT1nil : rest.filter (fun c => c.timestamp ≤ T1) = [] :=
        filter_le_nil_of_all_gt (fun d hd => by have := hhd d hd; omega)
      by_cases hc2 : c.timestamp ≤ T2
      · have h3 : T1 < c.timestamp ∧ c.timestamp ≤ T2 := ⟨by omega, hc2⟩
        simp [List.filter_cons, hc1, hc2, h3, ih hrest, hT1nil]
      · have h3 : ¬(T1 < c.timestamp ∧ c.timestamp ≤ T2) := by
          intro h; exact hc2 h.2
        have hT2nil : rest.filter (fun c => c.timestamp ≤ T2) = [] :=
          filter_le_nil_of_all_gt (fun d hd => by have := hhd d hd; omega)
        have hMidnil : rest.filter
            (fun c => T1 < c.timestamp ∧ c.timestamp ≤ T2) = [] :=
          filter_window_nil_of_all_gt (fun d hd => by have := hhd d hd; omega)
        simp [List.filter_cons, hc1, hc2, h3, hT1nil, hT2nil, hMidnil]
        intro a ha _
        have := hhd a ha
        omega

/-- A command with a valid (compiling) pattern never raises: `apply_command`
returns some text. -/
theorem apply_command_ok_of_valid {c : Command} (hv : c.pattern.isValid = true)
    (text : List Char) : ∃ t, apply_command text c = .ok t := by
  cases hp : c.pattern with
  | lit p =>
    simp only [apply_command, hp, finditer]
    by_cases hg : c.occurrence ≤ 0 ∨
        ((findFromFuel p text (text.length + 1) 0).length : Int) < c.occurrence
    · rw [if_pos hg]; exact ⟨text, rfl⟩
    · rw [if_neg hg]
      by_cases h1 : c.operation = "replace"
      · rw [if_pos h1]; exact ⟨_, rfl⟩
      · rw [if_neg h1]
        by_cases h2 : c.operation = "insert_after"
        · rw [if_pos h2]; exact ⟨_, rfl⟩
        · rw [if_neg h2]
          by_cases h3 : c.operation = "insert_before"
          · rw [if_pos h3]; exact ⟨_, rfl⟩
          · rw [if_neg h3]
            by_cases h4 : c.operation = "delete"
            · rw [if_pos h4]; exact ⟨_, rfl⟩
            · rw [if_neg h4]; exact ⟨text, rfl⟩
  | invalid => rw [hp] at hv; simp [RePattern.isValid] at hv

/-- Invariant of the `main` loop: the stack's timestamps strictly increase
in append order and never exceed the running timestamp counter. -/
theorem reachable_invariant {s : Session} (h : EditorReachable s) :
    s.stack.Pairwise (fun a b => a.timestamp < b.timestamp)
      ∧ ∀ c ∈ s.stack, c.timestamp ≤ s.timestamp := by
  induction h with
  | init orig => simp [initSession]
  | step hr hstep ih =>
    rcases ih with ⟨hpw, hbound⟩
    cases hstep with
    | edit d t happ =>
      constructor
      · apply List.pairwise_append.mpr
        refine ⟨hpw, List.pairwise_singleton _ _, ?_⟩
        intro a ha b hb
        simp only [editStep, List.mem_singleton] at hb ⊢
        subst hb
        have := hbound a ha
        simp only [mkCommand]
        omega
      · intro c hc
        simp only [editStep, List.mem_append, List.mem_singleton] at hc
        rcases hc with hc | hc
        · have := hbound c hc
          simp only [editStep]
          omega
        · subst hc
          simp [editStep, mkCommand]
    | revert target t hne hrec =>
      constructor
      · exact hpw.sublist (List.filter_sublist _)
      · intro c hc
        simp only [revertStep] at hc ⊢
        rcases List.mem_filter.mp hc with ⟨_, hle⟩
        simpa using hle

/-- Consecutive edit steps append consecutive timestamps: after running a
list of edits, the stack's timestamps are the old ones followed by
`timestamp + 1, timestamp + 2, ...`. -/
theorem editRun_stack_timestamps (ds : List (Draft × List Char)) :
    ∀ s : Session, (editRun s ds).stack.map (fun c => c.timestamp)
      = s.stack.map (fun c => c.timestamp)
        ++ (List.range ds.length).map (fun k : Nat => s.timestamp + 1 + (k : Int)) := by
  induction ds with
  | nil => intro s; simp [editRun]
  | cons p rest ih =>
    intro s
    obtain ⟨d, t⟩ := p
    rw [editRun, ih (editStep s d t)]
    simp only [editStep, mkCommand, List.map_append, List.map_cons, List.map_nil,
      List.length_cons, List.append_assoc]
    congr 1
    rw [List.range_succ_eq_map]
    simp only [List.map_cons, List.map_map, Nat.cast_zero, add_zero, List.cons_append,
      List.nil_append, List.singleton_append]
    congr 1
    · apply List.map_congr_left
      intro a _
      simp only [Function.comp_apply]
      push_cast
      ring

/-- In-range case analysis of `apply_command`: with the occurrence in
`[1, len ms]` and the selected span `(s, e)`, each of the four known
operations splices its `new_text` into `text[:s] ... text[e:]`. -/
theorem apply_command_in_range_cases (text : List Char) (c : Command)
    (ms : List (Nat × Nat)) (s e : Nat)
    (hok : finditer c.pattern text = .ok ms)
    (hlo : 1 ≤ c.occurrence) (hhi : c.occurrence ≤ (ms.length : Int))
    (hm : ms.getD (c.occurrence - 1).toNat (0, 0) = (s, e)) :
    (c.operation = "replace" →
        apply_command text c = .ok (text.take s ++ c.replacement ++ text.drop e))
  ∧ (c.operation = "insert_after" →
        apply_command text c
          = .ok (text.take s ++ ((text.drop s).take (e - s) ++ c.replacement) ++ text.drop e))
  ∧ (c.operation = "insert_before" →
        apply_command text c
          = .ok (text.take s ++ (c.replacement ++ (text.drop s).take (e - s)) ++ text.drop e))
  ∧ (c.operation = "delete" →
        apply_command text c = .ok (text.take s ++ [] ++ text.drop e)) := by
  have hg : ¬(c.occurrence ≤ 0 ∨ (ms.length : Int) < c.occurrence) := by omega
  refine ⟨?_, ?_, ?_, ?_⟩
  · intro hop
    unfold apply_command
    rw [hok]
    dsimp only
    rw [if_neg hg, hm]
    dsimp only
    rw [if_pos hop]
  · intro hop
    have h1 : c.operation ≠ "replace" := by rw [hop]; decide
    unfold apply_command
    rw [hok]
    dsimp only
    rw [if_neg hg, hm]
    dsimp only
    rw [if_neg h1, if_pos hop]
  · intro hop
    have h1 : c.operation ≠ "replace" := by rw [hop]; decide
    have h2 : c.operation ≠ "insert_after" := by rw [hop]; decide
    unfold apply_command
    rw [hok]
    dsimp only
    rw [if_neg hg, hm]
    dsimp only
    rw [if_neg h1, if_neg h2, if_pos hop]
  · intro hop
    have h1 : c.operation ≠ "replace" := by rw [hop]; decide
    have h2 : c.operation ≠ "insert_after" := by rw [hop]; decide
    have h3 : c.operation ≠ "insert_before" := by rw [hop]; decide
    unfold apply_command
    rw [hok]
    dsimp only
    rw [if_neg hg, hm]
    dsimp only
    rw [if_neg h1, if_neg h2, if_neg h3, if_pos hop]

/-! ## Claim theorems -/

/-- Claim C1: for every text and every command whose occurrence `k` lies in
`[1, number of matches]`, `apply_command` selects the match at index `k - 1`
with half-open span `(s, e)`, sets `new_text` by the operation (replace →
replacement; insert_after → matched + replacement; insert_before →
replacement + matched; delete → empty) and returns
`text[:s] + new_text + text[e:]`. -/
theorem apply_command_selects_match (text : List Char) (c : Command)
    (ms : List (Nat × Nat)) (s e : Nat)
    (hok : finditer c.pattern text = .ok ms)
    (hlo : 1 ≤ c.occurrence) (hhi : c.occurrence ≤ (ms.length : Int))
    (hm : ms.getD (c.occurrence - 1).toNat (0, 0) = (s, e)) :
    (c.operation = "replace" →
        apply_command text c = .ok (text.take s ++ c.replacement ++ text.drop e))
  ∧ (c.operation = "insert_after" →
        apply_command text c
          = .ok (text.take s ++ ((text.drop s).take (e - s) ++ c.replacement) ++ text.drop e))
  ∧ (c.operation = "insert_before" →
        apply_command text c
          = .ok (text.take s ++ (c.replacement ++ (text.drop s).take (e - s)) ++ text.drop e))
  ∧ (c.operation = "delete" →
        apply_command text c = .ok (text.take s ++ [] ++ text.drop e)) :=
  apply_command_in_range_cases text c ms s e hok hlo hhi hm

/-- Witness for C1: the Scenario A replace command hits the match `(1, 3)`
of `"at"` in `"cat sat"` and splices there. -/
theorem apply_command_selects_match_witness :
    apply_command "cat sat".data cmd1
      = .ok ("cat sat".data.take 1 ++ "og".data ++ "cat sat".data.drop 3) :=
  (apply_command_selects_match "cat sat".data cmd1 [(1, 3), (5, 7)] 1 3
    (by decide) (by decide) (by decide) (by decide)).1 rfl

/-- Claim C2: for a command list sorted in strictly increasing timestamp
order, the early-exit forward scan of `reconstruct_document_at_time` equals
folding `apply_command` over exactly the commands whose timestamp does not
exceed `target_time` (the spec-side `reconstructSpec`). -/
theorem reconstruct_eq_spec_prefix (orig : List Char)
    (command_stack : List Command) (target : Int) (hs : TimeSorted command_stack) :
    reconstruct_document_at_time orig command_stack target
      = reconstructSpec orig command_stack target := by
  rw [reconstruct_eq_takeWhile, reconstructSpec, takeWhile_eq_filter_of_sorted hs]

/-- Witness for C2 on the Scenario C log at `target_time = 1`. -/
theorem reconstruct_eq_spec_prefix_witness :
    reconstruct_document_at_time "cat sat".data [cmd1, cmd2] 1
      = reconstructSpec "cat sat".data [cmd1, cmd2] 1 :=
  reconstruct_eq_spec_prefix "cat sat".data [cmd1, cmd2] 1 (by decide)

/-- Claim C3: with positive strictly increasing timestamps,
`reconstruct_document_at_time` at `target_time = 0` (or below the first
timestamp) returns the original text, and at or above the largest timestamp
returns the full replay of every command in order. -/
theorem reconstruct_boundary (orig : List Char) (command_stack : List Command)
    (hpos : ∀ c ∈ command_stack, 0 < c.timestamp) (hs : TimeSorted command_stack) :
    (reconstruct_document_at_time orig command_stack 0 = .ok orig)
  ∧ (∀ target : Int, (∀ c, command_stack.head? = some c → target < c.timestamp) →
      reconstruct_document_at_time orig command_stack target = .ok orig)
  ∧ (∀ target : Int, (∀ c ∈ command_stack, c.timestamp ≤ target) →
      reconstruct_document_at_time orig command_stack target
        = applyAll orig command_stack) := by
  refine ⟨?_, ?_, ?_⟩
  · cases command_stack with
    | nil => rfl
    | cons c rest =>
      have h := hpos c (List.mem_cons_self c rest)
      rw [reconstruct_document_at_time, if_pos (by omega : c.timestamp > 0)]
  · intro target h
    cases command_stack with
    | nil => rfl
    | cons c rest =>
      have := h c rfl
      rw [reconstruct_document_at_time, if_pos (by omega : c.timestamp > target)]
  · intro target
    clear hpos hs
    induction command_stack generalizing orig with
    | nil => intro _; rfl
    | cons c rest ih =>
      intro h
      have hc := h c (List.mem_cons_self c rest)
      rw [reconstruct_document_at_time, if_neg (by omega : ¬c.timestamp > target),
        applyAll]
      cases happ : apply_command orig c with
      | error e => rfl
      | ok t => exact ih t (fun d hd => h d (List.mem_cons_of_mem c hd))

/-- Witness for C3 on the scenario log: `target_time = 0` gives the
original; `target_time = 9` (above both timestamps) gives the full replay. -/
theorem reconstruct_boundary_witness :
    (reconstruct_document_at_time "cat sat".data [cmd1, cmd2] 0 = .ok "cat sat".data)
  ∧ (reconstruct_document_at_time "cat sat".data [cmd1, cmd2] 9
      = applyAll "cat sat".data [cmd1, cmd2]) := by
  have h := reconstruct_boundary "cat sat".data [cmd1, cmd2] (by decide) (by decide)
  exact ⟨h.1, h.2.2 9 (by decide)⟩

/-- Claim C4: for a time-sorted log and `T1 < T2`, applying the commands
with timestamp in `(T1, T2]`, in order, to the reconstruction at `T1`
yields exactly the reconstruction at `T2` (errors propagate identically on
both sides). -/
theorem reconstruct_window_extension (orig : List Char)
    (command_stack : List Command) (T1 T2 : Int)
    (hs : TimeSorted command_stack) (h12 : T1 < T2) :
    (match reconstruct_document_at_time orig command_stack T1 with
     | .error e => .error e
     | .ok t1 => applyAll t1 (command_stack.filter
         (fun c => T1 < c.timestamp ∧ c.timestamp ≤ T2)))
      = reconstruct_document_at_time orig command_stack T2 := by
  rw [reconstruct_eq_takeWhile, reconstruct_eq_takeWhile,
    takeWhile_eq_filter_of_sorted hs, takeWhile_eq_filter_of_sorted hs,
    filter_le_split hs h12, applyAll_append]

/-- Witness for C4 on the scenario log with `T1 = 1 < T2 = 2`. -/
theorem reconstruct_window_extension_witness :
    (match reconstruct_document_at_time "cat sat".data [cmd1, cmd2] 1 with
     | .error e => .error e
     | .ok t1 => applyAll t1 ([cmd1, cmd2].filter
         (fun c => 1 < c.timestamp ∧ c.timestamp ≤ 2)))
      = reconstruct_document_at_time "cat sat".data [cmd1, cmd2] 2 :=
  reconstruct_window_extension "cat sat".data [cmd1, cmd2] 1 2 (by decide) (by decide)

/-- Claim C5: a command whose occurrence is outside `[1, number of matches]`
(zero, negative, or beyond the match count) is a silent no-op:
`apply_command` returns the text unchanged rather than an error. -/
theorem apply_command_out_of_range (text : List Char) (c : Command)
    (ms : List (Nat × Nat)) (hok : finditer c.pattern text = .ok ms)
    (h : c.occurrence < 1 ∨ (ms.length : Int) < c.occurrence) :
    apply_command text c = .ok text := by
  have hg : c.occurrence ≤ 0 ∨ (ms.length : Int) < c.occurrence := by omega
  unfold apply_command
  rw [hok]
  dsimp only
  rw [if_pos hg]

/-- Witness for C5: occurrence `5` with only two matches of `"at"` in
`"cat sat"` leaves the text unchanged. -/
theorem apply_command_out_of_range_witness :
    apply_command "cat sat".data
      { pattern := .lit "at".data, occurrence := 5, operation := "replace",
        replacement := "og".data, timestamp := 1 }
      = .ok "cat sat".data :=
  apply_command_out_of_range "cat sat".data _ [(1, 3), (5, 7)] (by decide) (by decide)

/-- Claim C6: Scenario A gives `"cog sat"`, Scenario B continues to
`"cog s"`, and Scenario C reconstructs at `target_time = 1` to `"cog sat"`
(only `cmd1` applied). -/
theorem scenario_replay :
    apply_command "cat sat".data cmd1 = .ok "cog sat".data
  ∧ apply_command "cog sat".data cmd2 = .ok "cog s".data
  ∧ reconstruct_document_at_time "cat sat".data [cmd1, cmd2] 1 = .ok "cog sat".data :=
  ⟨by decide, by decide, by decide⟩

/-- Claim C9: a command whose operation is none of the four known ones is a
no-op (not an error), for every occurrence — in particular one selecting a
valid match. -/
theorem apply_command_unknown_operation (text : List Char) (c : Command)
    (ms : List (Nat × Nat)) (hok : finditer c.pattern text = .ok ms)
    (h1 : c.operation ≠ "replace") (h2 : c.operation ≠ "insert_after")
    (h3 : c.operation ≠ "insert_before") (h4 : c.operation ≠ "delete") :
    apply_command text c = .ok text := by
  unfold apply_command
  rw [hok]
  dsimp only
  by_cases hg : c.occurrence ≤ 0 ∨ (ms.length : Int) < c.occurrence
  · rw [if_pos hg]
  · rw [if_neg hg, if_neg h1, if_neg h2, if_neg h3, if_neg h4]

/-- Witness for C9: operation `"swap"` with a valid occurrence `1` leaves
`"cat sat"` unchanged. -/
theorem apply_command_unknown_operation_witness :
    apply_command "cat sat".data
      { pattern := .lit "at".data, occurrence := 1, operation := "swap",
        replacement := "og".data, timestamp := 1 }
      = .ok "cat sat".data :=
  apply_command_unknown_operation "cat sat".data _ [(1, 3), (5, 7)]
    (by decide) (by decide) (by decide) (by decide) (by decide)

/-- Claim C7: in every reachable editor-session state the log's timestamps
strictly increase with append order (hence are unique); from a fresh
session, consecutive edits receive timestamps `1, 2, 3, ...`; and the first
edit after a revert-and-continue to `T` receives timestamp `T + 1`. -/
theorem session_timestamp_invariants :
    (∀ s : Session, EditorReachable s →
        s.stack.Pairwise (fun a b => a.timestamp < b.timestamp)
      ∧ s.stack.Pairwise (fun a b => a.timestamp ≠ b.timestamp))
  ∧ (∀ (orig : List Char) (ds : List (Draft × List Char)),
        (editRun (initSession orig) ds).stack.map (fun c => c.timestamp)
          = (List.range ds.length).map (fun k : Nat => (k : Int) + 1))
  ∧ (∀ (s : Session) (T : Int) (t : List Char) (d : Draft) (t' : List Char),
        (editStep (revertStep s T t) d t').stack.getLast?
          = some (mkCommand d (T + 1))) := by
  refine ⟨?_, ?_, ?_⟩
  · intro s hs
    have h := reachable_invariant hs
    exact ⟨h.1, h.1.imp (fun hab => by omega)⟩
  · intro orig ds
    rw [editRun_stack_timestamps]
    simp only [initSession, List.map_nil, List.nil_append]
    apply List.map_congr_left
    intro a _
    omega
  · intro s T t d t'
    simp only [editStep, revertStep]
    rw [List.getLast?_concat]

/-- Witness for C7: an actual reachable one-edit session is sorted; a fresh
session's single edit gets timestamp `1`; Scenario E — after truncating to
timestamp `1` the next appended command gets timestamp `2`, not `3`. -/
theorem session_timestamp_invariants_witness :
    ((editStep (initSession "cat sat".data) draft1 "cog sat".data).stack.Pairwise
        (fun a b => a.timestamp < b.timestamp))
  ∧ ((editRun (initSession "cat sat".data) [(draft1, "cog sat".data)]).stack.map
        (fun c => c.timestamp) = [1])
  ∧ ((editStep (revertStep (editStep (initSession "cat sat".data) draft1
        "cog sat".data) 1 "cog sat".data) draft1 "x".data).stack.getLast?
        = some (mkCommand draft1 2)) :=
  ⟨(session_timestamp_invariants.1 _
      (EditorReachable.step (EditorReachable.init "cat sat".data)
        (EditorStep.edit (initSession "cat sat".data) draft1 "cog sat".data
          (by decide)))).1,
   (session_timestamp_invariants.2.1 "cat sat".data
      [(draft1, "cog sat".data)]).trans (by decide),
   session_timestamp_invariants.2.2 _ 1 "cog sat".data draft1 "x".data⟩

/-- Counterexample to C8 as stated: a command list may carry a pattern that
is not a valid regular expression, and on it `re.finditer` raises inside
`apply_command`; `reconstruct_document_at_time` does not catch the
exception, so replay fails instead of returning a text. -/
theorem reconstruct_error_on_invalid_pattern :
    reconstruct_document_at_time "cat sat".data [badCmd] 1 = .error () := by
  decide

/-- Claim C8 (amended): for every original text, every command list whose
patterns are valid regular expressions, and every target time, replay never
fails — `reconstruct_document_at_time` terminates and returns some
(deterministic) text. -/
theorem reconstruct_total_on_valid_patterns (orig : List Char)
    (command_stack : List Command) (target : Int)
    (hv : ∀ c ∈ command_stack, c.pattern.isValid = true) :
    ∃ t, reconstruct_document_at_time orig command_stack target = .ok t := by
  revert hv
  induction command_stack generalizing orig with
  | nil => intro _; exact ⟨orig, rfl⟩
  | cons c rest ih =>
    intro hv
    by_cases h : c.timestamp > target
    · exact ⟨orig, by rw [reconstruct_document_at_time, if_pos h]⟩
    · obtain ⟨t, ht⟩ :=
        apply_command_ok_of_valid (hv c (List.mem_cons_self c rest)) orig
      obtain ⟨u, hu⟩ := ih t (fun d hd => hv d (List.mem_cons_of_mem c hd))
      refine ⟨u, ?_⟩
      rw [reconstruct_document_at_time, if_neg h, ht]
      exact hu

/-- Witness for the amended C8: the scenario log has valid patterns and
replay at `target_time = 5` returns a text. -/
theorem reconstruct_total_on_valid_patterns_witness :
    ∃ t, reconstruct_document_at_time "cat sat".data [cmd1, cmd2] 5 = .ok t :=
  reconstruct_total_on_valid_patterns "cat sat".data [cmd1, cmd2] 5 (by decide)

/-- Claim C10: when the occurrence selects a valid match with span
`(s, e)`: for the insert operations the result keeps the matched substring
at its position (right after `text[:s]` for insert_after, shifted by the
replacement's length for insert_before) and has length
`len(text) + len(replacement)`; for delete the result has length
`len(text) - (e - s)` and is independent of the replacement field; for
replace the length is `len(text) - (e - s) + len(replacement)`. -/
theorem apply_command_length_effects (text : List Char) (c : Command)
    (ms : List (Nat × Nat)) (s e : Nat)
    (hok : finditer c.pattern text = .ok ms)
    (hlo : 1 ≤ c.occurrence) (hhi : c.occurrence ≤ (ms.length : Int))
    (hm : ms.getD (c.occurrence - 1).toNat (0, 0) = (s, e)) :
    (c.operation = "insert_after" → ∃ r, apply_command text c = .ok r
        ∧ r.length = text.length + c.replacement.length
        ∧ (r.drop s).take (e - s) = (text.drop s).take (e - s))
  ∧ (c.operation = "insert_before" → ∃ r, apply_command text c = .ok r
        ∧ r.length = text.length + c.replacement.length
        ∧ (r.drop (s + c.replacement.length)).take (e - s)
            = (text.drop s).take (e - s))
  ∧ (c.operation = "delete" → ∃ r, apply_command text c = .ok r
        ∧ r.length = text.length - (e - s)
        ∧ ∀ repl : List Char,
            apply_command text { c with replacement := repl } = .ok r)
  ∧ (c.operation = "replace" → ∃ r, apply_command text c = .ok r
        ∧ r.length = text.length - (e - s) + c.replacement.length) := by
  have hg : ¬(c.occurrence ≤ 0 ∨ (ms.length : Int) < c.occurrence) := by omega
  have hidx : (c.occurrence - 1).toNat < ms.length := by omega
  have hmem : (s, e) ∈ ms := by
    rw [← hm, List.getD_eq_getElem ms (0, 0) hidx]
    exact List.getElem_mem hidx
  obtain ⟨hse, hel⟩ := finditer_mem_bounds hok hmem
  have hsl : s ≤ text.length := le_trans hse hel
  have hA : (text.take s).length = s := by
    rw [List.length_take]
    omega
  have hB : ((text.drop s).take (e - s)).length = e - s := by
    rw [List.length_take, List.length_drop]
    omega
  refine ⟨?_, ?_, ?_, ?_⟩
  · intro hop
    refine ⟨text.take s ++ ((text.drop s).take (e - s) ++ c.replacement)
        ++ text.drop e, ?_, ?_, ?_⟩
    · exact (apply_command_in_range_cases text c ms s e hok hlo hhi hm).2.1 hop
    · simp only [List.length_append, List.length_take, List.length_drop]
      omega
    · rw [List.append_assoc, List.drop_left' hA, List.append_assoc,
        List.take_left' hB]
  · intro hop
    refine ⟨text.take s ++ (c.replacement ++ (text.drop s).take (e - s))
        ++ text.drop e, ?_, ?_, ?_⟩
    · exact (apply_command_in_range_cases text c ms s e hok hlo hhi hm).2.2.1 hop
    · simp only [List.length_append, List.length_take, List.length_drop]
      omega
    · have hAB : (text.take s ++ c.replacement).length = s + c.replacement.length := by
        rw [List.length_append, hA]
      calc ((text.take s ++ (c.replacement ++ (text.drop s).take (e - s))
              ++ text.drop e).drop (s + c.replacement.length)).take (e - s)
          = (((text.take s ++ c.replacement)
              ++ ((text.drop s).take (e - s) ++ text.drop e)).drop
                (s + c.replacement.length)).take (e - s) := by
            simp only [List.append_assoc]
        _ = ((text.drop s).take (e - s) ++ text.drop e).take (e - s) := by
            rw [List.drop_left' hAB]
        _ = (text.drop s).take (e - s) := List.take_left' hB
  · intro hop
    refine ⟨text.take s ++ [] ++ text.drop e, ?_, ?_, ?_⟩
    · exact (apply_command_in_range_cases text c ms s e hok hlo hhi hm).2.2.2 hop
    · simp only [List.length_append, List.length_take, List.length_drop,
        List.length_nil]
      omega
    · intro repl
      exact (apply_command_in_range_cases text
        { c with replacement := repl } ms s e hok hlo hhi hm).2.2.2 hop
  · intro hop
    refine ⟨text.take s ++ c.replacement ++ text.drop e, ?_, ?_⟩
    · exact (apply_command_in_range_cases text c ms s e hok hlo hhi hm).1 hop
    · simp only [List.length_append, List.length_take, List.length_drop]
      omega

/-- Witness for C10: insert_after of `"xy"` at the first `"at"` of
`"cat sat"` keeps the match at its place and grows the text by two. -/
theorem apply_command_length_effects_witness :
    ∃ r, apply_command "cat sat".data
      { pattern := .lit "at".data, occurrence := 1, operation := "insert_after",
        replacement := "xy".data, timestamp := 1 } = .ok r
      ∧ r.length = "cat sat".data.length + "xy".data.length
      ∧ (r.drop 1).take (3 - 1) = ("cat sat".data.drop 1).take (3 - 1) :=
  (apply_command_length_effects "cat sat".data _ [(1, 3), (5, 7)] 1 3
    (by decide) (by decide) (by decide) (by decide)).1 rfl
